import Mathlib

/-!
Verification of the NUMA-zone resource ledger and plugin construction logic
of `pkg/noderesourcetopology/plugin.go`.

The embedding is value-level:
* `resource.Quantity` supports exact arbitrary-precision signed arithmetic
  (`Cmp`, `Sub`), so a quantity is modelled as `Int`.
* `v1.ResourceList` is a map from resource name to quantity; it is modelled
  as an association list read and written through `rlLookup` / `rlSet`
  (Go maps have unique keys; where a statement needs that, it appears as a
  `Nodup` hypothesis on the key list).
* `NUMANodeList` is a Go slice; indexing `numaNodes[node]` with a Go `int`
  can be negative or too large, in which case the program panics, so the
  embedded functions return `Option`: `none` is the panic.
-/

set_option autoImplicit false

namespace NRT

abbrev ResourceName := String

/-- `resource.Quantity`: exact signed arbitrary-precision arithmetic. -/
abbrev Quantity := Int

/-- `v1.ResourceList`: map from resource name to quantity, as an association
list.  Go map reads/writes are `rlLookup` / `rlSet`. -/
abbrev ResourceList := List (ResourceName × Quantity)

/-- Go map read `rl[n]` with its `ok` flag: the value at key `n`, if present. -/
def rlLookup : ResourceList → ResourceName → Option Quantity
  | [], _ => none
  | (k, v) :: rest, n => if k = n then some v else rlLookup rest n

/-- Go map write `rl[n] = q`: replace the binding of `n`, or add it. -/
def rlSet : ResourceList → ResourceName → Quantity → ResourceList
  | [], n, q => [(n, q)]
  | (k, v) :: rest, n, q =>
    if k = n then (n, q) :: rest else (k, v) :: rlSet rest n q

/-- `NUMANode` from plugin.go: a zone id and its resource map. -/
structure NUMANode where
  NUMAID : Int
  Resources : ResourceList
  deriving DecidableEq, Repr

abbrev NUMANodeList := List NUMANode

/-- Go slice indexing `numaNodes[node]` with a Go `int` index: `none` when the
index is out of `[0, length)` (a runtime panic in the original program). -/
def zoneAt (numaNodes : NUMANodeList) (i : Int) : Option NUMANode :=
  if i < 0 then none else numaNodes[i.toNat]?

/-- Writing through the map reference `nRes := numaNodes[node].Resources`:
replace the resource map of the zone at (in-range) position `i`. -/
def setZoneResources : NUMANodeList → Nat → ResourceList → NUMANodeList
  | [], _, _ => []
  | nn :: rest, 0, res => { nn with Resources := res } :: rest
  | nn :: rest, i + 1, res => nn :: setZoneResources rest i res

/-- The inner loop of `subtractFromNUMAs` (plugin.go lines 49-76) for one
resource kind `resName` with remaining requested quantity `quantity`:
walk the node ids in order, updating the zone ledgers and the remaining
quantity.  `quantity.Cmp(available)` is `compare quantity available`; the
`0` and `1` cases of the Go `switch` both run `quantity.Sub(available)` and
zero the zone entry, the `-1` case stores `available - quantity` in the zone
and zeroes the remaining quantity.  Returns the final remaining quantity and
the updated zone list, or `none` on an out-of-range node id. -/
def subtractInner (resName : ResourceName) :
    Quantity → NUMANodeList → List Int → Option (Quantity × NUMANodeList)
  | quantity, numaNodes, [] => some (quantity, numaNodes)
  | quantity, numaNodes, node :: rest =>
    if quantity = 0 then
      -- quantity is zero, no need to iterate through another NUMA node
      some (quantity, numaNodes)
    else
      match zoneAt numaNodes node with
      | none => none
      | some nn =>
        match rlLookup nn.Resources resName with
        | none => subtractInner resName quantity numaNodes rest
        | some available =>
          match compare quantity available with
          | .eq =>
            subtractInner resName (quantity - available)
              (setZoneResources numaNodes node.toNat (rlSet nn.Resources resName 0)) rest
          | .gt =>
            subtractInner resName (quantity - available)
              (setZoneResources numaNodes node.toNat (rlSet nn.Resources resName 0)) rest
          | .lt =>
            subtractInner resName 0
              (setZoneResources numaNodes node.toNat
                (rlSet nn.Resources resName (available - quantity))) rest

/-- `subtractFromNUMAs(resources, numaNodes, nodes...)` (plugin.go lines
47-78).  The outer loop ranges over the request map; `quantity` is the
per-iteration copy of the map value, so the residual quantity is dropped at
the end of each resource's scan.  The function mutates `numaNodes` in place
in Go; here the updated zone list is returned (`none` = panic on an
out-of-range node id). -/
def subtractFromNUMAs : ResourceList → NUMANodeList → List Int → Option NUMANodeList
  | [], numaNodes, _ => some numaNodes
  | (resName, quantity) :: rest, numaNodes, nodes =>
    match subtractInner resName quantity numaNodes nodes with
    | none => none
    | some (_, numaNodes') => subtractFromNUMAs rest numaNodes' nodes

/-! Observation helpers for the theorems. -/

/-- The entry of zone `i` (a list position) for resource kind `r`. -/
def zoneEntry (numaNodes : NUMANodeList) (i : Nat) (r : ResourceName) : Option Quantity :=
  match numaNodes[i]? with
  | none => none
  | some nn => rlLookup nn.Resources r

/-- Total quantity of resource kind `r` over all zones of the inventory. -/
def totalAvailable : NUMANodeList → ResourceName → Quantity
  | [], _ => 0
  | nn :: rest, r => (rlLookup nn.Resources r).getD 0 + totalAvailable rest r

/-- Total quantity of resource kind `r` over the listed zone ids (zones with
no entry for `r` contribute 0). -/
def listedAvailable (numaNodes : NUMANodeList) (nodes : List Int) (r : ResourceName) : Quantity :=
  (nodes.map fun i => ((zoneAt numaNodes i).bind fun nn => rlLookup nn.Resources r).getD 0).sum

/-- The quantity requested for kind `r` (0 when `r` is not in the request). -/
def requestedAmount (resources : ResourceList) (r : ResourceName) : Quantity :=
  (rlLookup resources r).getD 0

/-- Every quantity in every zone's ledger is non-negative (the spec's data
model: quantities are non-negative). -/
def zonesNonneg (numaNodes : NUMANodeList) : Prop :=
  ∀ nn ∈ numaNodes, ∀ p ∈ nn.Resources, 0 ≤ p.2

instance (numaNodes : NUMANodeList) : Decidable (zonesNonneg numaNodes) := by
  unfold zonesNonneg; infer_instance

/-- Every listed node id is a valid index into the zone inventory. -/
def validNodes (numaNodes : NUMANodeList) (nodes : List Int) : Prop :=
  ∀ n ∈ nodes, 0 ≤ n ∧ n.toNat < numaNodes.length

instance (numaNodes : NUMANodeList) (nodes : List Int) :
    Decidable (validNodes numaNodes nodes) := by
  unfold validNodes; infer_instance

/-- The entry of the zone at (possibly invalid) Go index `j` for kind `r`. -/
def zoneEntryAt (numaNodes : NUMANodeList) (j : Int) (r : ResourceName) : Option Quantity :=
  (zoneAt numaNodes j).bind fun nn => rlLookup nn.Resources r

/-! ### State-threaded embedding of the mutation semantics

`subtractFromNUMAs` mutates its slice argument in place.  To settle frame
claims, the same loop is embedded once more as a transformer of the full
call state, with every Go assignment threaded through the state: the loop
body writes only through the zone map reference
`nRes := numaNodes[node].Resources`; the `range` variable `quantity` is a
per-iteration copy of the request map value, and no statement assigns into
`resources` or `nodes`. -/

/-- The caller-visible state of a `subtractFromNUMAs` call. -/
structure SubtractState where
  resources : ResourceList
  numaNodes : NUMANodeList
  nodes : List Int
  deriving DecidableEq, Repr

/-- The inner loop of `subtractFromNUMAs` over the full call state. -/
def subtractInnerS (resName : ResourceName) :
    Quantity → SubtractState → List Int → Option SubtractState
  | _, s, [] => some s
  | quantity, s, node :: rest =>
    if quantity = 0 then some s
    else
      match zoneAt s.numaNodes node with
      | none => none
      | some nn =>
        match rlLookup nn.Resources resName with
        | none => subtractInnerS resName quantity s rest
        | some available =>
          match compare quantity available with
          | .eq =>
            subtractInnerS resName (quantity - available)
              { s with numaNodes := (setZoneResources s.numaNodes node.toNat
                  (rlSet nn.Resources resName 0)) } rest
          | .gt =>
            subtractInnerS resName (quantity - available)
              { s with numaNodes := (setZoneResources s.numaNodes node.toNat
                  (rlSet nn.Resources resName 0)) } rest
          | .lt =>
            subtractInnerS resName 0
              { s with numaNodes := (setZoneResources s.numaNodes node.toNat
                  (rlSet nn.Resources resName (available - quantity))) } rest

/-- The outer loop of `subtractFromNUMAs` over the request map entries,
threading the call state. -/
def subtractLoopS : List (ResourceName × Quantity) → SubtractState → Option SubtractState
  | [], s => some s
  | (resName, quantity) :: rest, s =>
    match subtractInnerS resName quantity s s.nodes with
    | none => none
    | some s' => subtractLoopS rest s'

/-- `subtractFromNUMAs` as a transformer of the full call state. -/
def subtractFromNUMAsS (s : SubtractState) : Option SubtractState :=
  subtractLoopS s.resources s

/-! ### Policy dispatch tables and plugin construction -/

/-- `topologyv1alpha1.TopologyManagerPolicy` (external API): a string-typed
policy identifier. -/
abbrev TopologyManagerPolicy := String

def SingleNUMANodePodLevel : TopologyManagerPolicy := "SingleNUMANodePodLevel"

def SingleNUMANodeContainerLevel : TopologyManagerPolicy := "SingleNUMANodeContainerLevel"

def BestEffortPodLevel : TopologyManagerPolicy := "BestEffortPodLevel"

def BestEffortContainerLevel : TopologyManagerPolicy := "BestEffortContainerLevel"

def RestrictedPodLevel : TopologyManagerPolicy := "RestrictedPodLevel"

def RestrictedContainerLevel : TopologyManagerPolicy := "RestrictedContainerLevel"

/-- The six supported Alignment Policy variants,
{Single-NUMA-Node, Best-Effort, Restricted} × {pod-level, container-level}. -/
def allPolicies : List TopologyManagerPolicy :=
  [SingleNUMANodePodLevel, SingleNUMANodeContainerLevel, BestEffortPodLevel,
    BestEffortContainerLevel, RestrictedPodLevel, RestrictedContainerLevel]

/-- `resourceToWeightMap`: a map from resource name to weight (an
association list, like `ResourceList`). -/
abbrev resourceToWeightMap := List (ResourceName × Int)

/-- Modelled from the spec: the three weighted scoring-strategy functions
resolvable by `getScoringStrategyFunction` (score.go, outside src/); only
their identity matters here. -/
inductive ScoreStrategy where
  | mostAllocated
  | balancedAllocation
  | leastAllocated
  deriving DecidableEq, Repr

/-- Modelled from the spec: identities of the scorer functions a
score-handlers table can hold.  `leastNUMAPodScopeScore` and
`leastNUMAContainerScopeScore` are the pod-scope / container-scope
"fewest zones consumed" scorers (score.go, outside src/);
`podScopeScore` / `containerScopeScore` are the configurable weighted
scorers, closing over a strategy function and a resource-to-weight map. -/
inductive ScoringFn where
  | leastNUMAPodScopeScore
  | leastNUMAContainerScopeScore
  | podScopeScore (strategy : ScoreStrategy) (weights : resourceToWeightMap)
  | containerScopeScore (strategy : ScoreStrategy) (weights : resourceToWeightMap)
  deriving DecidableEq, Repr

/-- Modelled from the spec: identities of the per-scope filter functions
(filter.go, outside src/); only table totality matters here. -/
inductive FilterFn where
  | podScopeFilter
  | containerScopeFilter
  deriving DecidableEq, Repr

abbrev scoreHandlersMap := List (TopologyManagerPolicy × ScoringFn)

abbrev filterHandlersMap := List (TopologyManagerPolicy × FilterFn)

/-- Go map lookup in a dispatch table. -/
def tableLookup {α : Type} : List (TopologyManagerPolicy × α) → TopologyManagerPolicy → Option α
  | [], _ => none
  | (k, v) :: rest, n => if k = n then some v else tableLookup rest n

/-- `leastNUMAscoreHandlers` (plugin.go lines 86-95), entries in source
order. -/
def leastNUMAscoreHandlers : scoreHandlersMap :=
  [(SingleNUMANodePodLevel, .leastNUMAPodScopeScore),
    (SingleNUMANodeContainerLevel, .leastNUMAContainerScopeScore),
    (BestEffortPodLevel, .leastNUMAPodScopeScore),
    (BestEffortContainerLevel, .leastNUMAContainerScopeScore),
    (RestrictedPodLevel, .leastNUMAPodScopeScore),
    (RestrictedContainerLevel, .leastNUMAContainerScopeScore)]

/-- Modelled from the spec: `newFilterHandlers` (filter.go, outside src/)
registers one filter function per Alignment Policy variant, pod-scope for
pod-level variants and container-scope for container-level variants. -/
def newFilterHandlers : filterHandlersMap :=
  [(SingleNUMANodePodLevel, .podScopeFilter),
    (SingleNUMANodeContainerLevel, .containerScopeFilter),
    (BestEffortPodLevel, .podScopeFilter),
    (BestEffortContainerLevel, .containerScopeFilter),
    (RestrictedPodLevel, .podScopeFilter),
    (RestrictedContainerLevel, .containerScopeFilter)]

/-- Modelled from the spec: `newScoringHandlers` (score.go, outside src/)
registers, for every policy variant, the weighted scorer built from the
strategy function and the resource-to-weight map (pod-scope for pod-level
variants, container-scope for container-level variants). -/
def newScoringHandlers (strategy : ScoreStrategy) (w : resourceToWeightMap) :
    scoreHandlersMap :=
  [(SingleNUMANodePodLevel, .podScopeScore strategy w),
    (SingleNUMANodeContainerLevel, .containerScopeScore strategy w),
    (BestEffortPodLevel, .podScopeScore strategy w),
    (BestEffortContainerLevel, .containerScopeScore strategy w),
    (RestrictedPodLevel, .podScopeScore strategy w),
    (RestrictedContainerLevel, .containerScopeScore strategy w)]

/-- `apiconfig.ScoringStrategyType` (apis/config, outside src/): a string. -/
abbrev ScoringStrategyType := String

def LeastNUMANodes : ScoringStrategyType := "LeastNUMANodes"

def MostAllocated : ScoringStrategyType := "MostAllocated"

def BalancedAllocation : ScoringStrategyType := "BalancedAllocation"

def LeastAllocated : ScoringStrategyType := "LeastAllocated"

/-- `apiconfig.ResourceSpec` (apis/config, outside src/): a resource name
and its scoring weight. -/
structure ResourceSpec where
  Name : String
  Weight : Int
  deriving DecidableEq, Repr

/-- `apiconfig.ScoringStrategy` (apis/config, outside src/): the scoring
strategy type (field `Type` in Go) and its weighted resources. -/
structure ScoringStrategy where
  type : ScoringStrategyType
  resources : List ResourceSpec
  deriving DecidableEq, Repr

/-- `apiconfig.NodeResourceTopologyMatchArgs` (apis/config, outside src/). -/
structure NodeResourceTopologyMatchArgs where
  scoringStrategy : ScoringStrategy
  deriving DecidableEq, Repr

/-- `runtime.Object` at the `New` boundary: either the expected args type
or a value of some other type (its type name retained for the error
message). -/
inductive RuntimeObject where
  | nrtMatchArgs (tcfg : NodeResourceTopologyMatchArgs)
  | other (typeName : String)
  deriving DecidableEq, Repr

/-- Handle for the node-topology informer/cache produced by
`initNodeTopologyInformer` (cache wiring, outside src/); opaque to `New`. -/
structure NrtCacheHandle where
  id : Nat
  deriving DecidableEq, Repr

/-- `TopologyMatch` (plugin.go lines 98-103). -/
structure TopologyMatch where
  filterHandlers : filterHandlersMap
  scoringHandlers : scoreHandlersMap
  resourceToWeightMap : NRT.resourceToWeightMap
  nrtCache : NrtCacheHandle
  deriving DecidableEq, Repr

/-- The weight-map construction loop of `New` (plugin.go lines 129-132):
one Go map insert per configured resource. -/
def buildResourceToWeightMap (resources : List ResourceSpec) : resourceToWeightMap :=
  resources.foldl (fun m r => rlSet m r.Name r.Weight) []

/-- Modelled from the spec: `getScoringStrategyFunction` (score.go, outside
src/) resolves a supported weighted scoring-strategy type to its strategy
function and rejects any other type as a configuration error. -/
def getScoringStrategyFunction (t : ScoringStrategyType) : Except String ScoreStrategy :=
  if t = MostAllocated then .ok .mostAllocated
  else if t = BalancedAllocation then .ok .balancedAllocation
  else if t = LeastAllocated then .ok .leastAllocated
  else .error ("illegal scoring strategy found " ++ t)

/-- `New` (plugin.go lines 116-155).  The call to
`initNodeTopologyInformer` (outside src/) is represented by its outcome,
passed as the `informer` argument; the weight map, computed once before the
branch in Go, is referenced through `buildResourceToWeightMap`. -/
def New (args : RuntimeObject) (informer : Except String NrtCacheHandle) :
    Except String TopologyMatch :=
  match args with
  | .other typeName =>
    .error ("want args to be of type NodeResourceTopologyMatchArgs, got " ++ typeName)
  | .nrtMatchArgs tcfg =>
    match informer with
    | .error e => .error e
    | .ok nrtCache =>
      if tcfg.scoringStrategy.type = LeastNUMANodes then
        .ok { filterHandlers := newFilterHandlers,
              scoringHandlers := leastNUMAscoreHandlers,
              resourceToWeightMap :=
                buildResourceToWeightMap tcfg.scoringStrategy.resources,
              nrtCache := nrtCache }
      else
        match getScoringStrategyFunction tcfg.scoringStrategy.type with
        | .error e => .error e
        | .ok strategy =>
          .ok { filterHandlers := newFilterHandlers,
                scoringHandlers := newScoringHandlers strategy
                  (buildResourceToWeightMap tcfg.scoringStrategy.resources),
                resourceToWeightMap :=
                  buildResourceToWeightMap tcfg.scoringStrategy.resources,
                nrtCache := nrtCache }

/-! ### Association-list and zone-update lemmas -/

theorem rlLookup_rlSet_self (rl : ResourceList) (n : ResourceName) (q : Quantity) :
    rlLookup (rlSet rl n q) n = some q := by
  induction rl with
  | nil => simp [rlSet, rlLookup]
  | cons p rest ih =>
    obtain ⟨k, v⟩ := p
    by_cases h : k = n <;> simp [rlSet, rlLookup, h, ih]

theorem rlLookup_rlSet_ne (rl : ResourceList) {n m : ResourceName} (q : Quantity)
    (h : m ≠ n) : rlLookup (rlSet rl n q) m = rlLookup rl m := by
  induction rl with
  | nil => simp [rlSet, rlLookup, Ne.symm h]
  | cons p rest ih =>
    obtain ⟨k, v⟩ := p
    by_cases hk : k = n
    · subst hk
      simp [rlSet, rlLookup, Ne.symm h]
    · simp only [rlSet, if_neg hk, rlLookup]
      by_cases hm : k = m <;> simp [hm, ih]

theorem rlSet_nonneg {rl : ResourceList} {n : ResourceName} {q : Quantity}
    (hrl : ∀ p ∈ rl, 0 ≤ p.2) (hq : 0 ≤ q) : ∀ p ∈ rlSet rl n q, 0 ≤ p.2 := by
  induction rl with
  | nil => simpa [rlSet]
  | cons p rest ih =>
    obtain ⟨k, v⟩ := p
    by_cases hk : k = n
    · intro x hx
      rcases (by simpa [rlSet, hk] using hx) with h | h
      · simp [h, hq]
      · exact hrl x (by simp [h])
    · intro x hx
      rcases (by simpa [rlSet, hk] using hx) with h | h
      · exact hrl x (by simp [h])
      · exact ih (fun y hy => hrl y (by simp [hy])) x h

theorem rlLookup_rlSet_none_iff {rl : ResourceList} {n : ResourceName} {q : Quantity}
    (hn : (rlLookup rl n).isSome) (m : ResourceName) :
    (rlLookup (rlSet rl n q) m = none ↔ rlLookup rl m = none) := by
  by_cases hm : m = n
  · subst hm
    simp [rlLookup_rlSet_self]
    intro h
    rw [h] at hn
    simp at hn
  · rw [rlLookup_rlSet_ne rl q hm]

theorem rlLookup_nonneg {rl : ResourceList} (h : ∀ p ∈ rl, 0 ≤ p.2)
    {n : ResourceName} {v : Quantity} (hv : rlLookup rl n = some v) : 0 ≤ v := by
  induction rl with
  | nil => simp [rlLookup] at hv
  | cons p rest ih =>
    obtain ⟨k, w⟩ := p
    by_cases hk : k = n
    · simp only [rlLookup, if_pos hk, Option.some.injEq] at hv
      exact hv ▸ h (k, w) (by simp)
    · simp only [rlLookup, if_neg hk] at hv
      exact ih (fun y hy => h y (by simp [hy])) hv

theorem length_setZoneResources (zs : NUMANodeList) (i : Nat) (res : ResourceList) :
    (setZoneResources zs i res).length = zs.length := by
  induction zs generalizing i with
  | nil => rfl
  | cons nn rest ih =>
    cases i with
    | zero => rfl
    | succ j => simp [setZoneResources, ih]

theorem getElem?_setZoneResources_self {zs : NUMANodeList} {i : Nat} {nn : NUMANode}
    (h : zs[i]? = some nn) (res : ResourceList) :
    (setZoneResources zs i res)[i]? = some { nn with Resources := res } := by
  induction zs generalizing i with
  | nil => simp at h
  | cons x rest ih =>
    cases i with
    | zero =>
      simp only [List.getElem?_cons_zero, Option.some.injEq] at h
      simp [setZoneResources, h]
    | succ j =>
      simp only [List.getElem?_cons_succ] at h
      simp [setZoneResources, ih h]

theorem getElem?_setZoneResources_ne (zs : NUMANodeList) {i j : Nat} (h : j ≠ i)
    (res : ResourceList) : (setZoneResources zs i res)[j]? = zs[j]? := by
  induction zs generalizing i j with
  | nil => rfl
  | cons x rest ih =>
    cases i with
    | zero =>
      cases j with
      | zero => exact absurd rfl h
      | succ j' => simp [setZoneResources]
    | succ i' =>
      cases j with
      | zero => simp [setZoneResources]
      | succ j' => simpa [setZoneResources] using ih (fun hh => h (by simp [hh]))

theorem totalAvailable_setZoneResources {zs : NUMANodeList} {i : Nat} {nn : NUMANode}
    (h : zs[i]? = some nn) (res : ResourceList) (r : ResourceName) :
    totalAvailable (setZoneResources zs i res) r =
      totalAvailable zs r - (rlLookup nn.Resources r).getD 0 + (rlLookup res r).getD 0 := by
  induction zs generalizing i with
  | nil => simp at h
  | cons x rest ih =>
    cases i with
    | zero =>
      simp only [List.getElem?_cons_zero, Option.some.injEq] at h
      subst h
      simp [setZoneResources, totalAvailable]
      ring
    | succ j =>
      simp only [List.getElem?_cons_succ] at h
      simp [setZoneResources, totalAvailable, ih h]
      ring

theorem zonesNonneg_setZoneResources {res : ResourceList} (hres : ∀ p ∈ res, 0 ≤ p.2) :
    ∀ (zs : NUMANodeList) (i : Nat), zonesNonneg zs →
      zonesNonneg (setZoneResources zs i res) := by
  intro zs
  induction zs with
  | nil => intro i hz; simpa [setZoneResources] using hz
  | cons x rest ih =>
    intro i hz
    cases i with
    | zero =>
      intro nn hnn
      rw [setZoneResources] at hnn
      rcases List.mem_cons.mp hnn with h | h
      · subst h; simpa using hres
      · exact hz nn (List.mem_cons_of_mem _ h)
    | succ j =>
      intro nn hnn
      rw [setZoneResources] at hnn
      rcases List.mem_cons.mp hnn with h | h
      · subst h; exact hz nn (List.mem_cons_self _ _)
      · exact ih j (fun y hy => hz y (List.mem_cons_of_mem _ hy)) nn h

theorem mem_of_zoneAt {zs : NUMANodeList} {j : Int} {nn : NUMANode}
    (h : zoneAt zs j = some nn) : nn ∈ zs := by
  unfold zoneAt at h
  split at h
  · simp at h
  · exact List.getElem?_mem h

theorem zoneAt_setZoneResources_ne {zs : NUMANodeList} {i : Nat} {j : Int}
    (h : j.toNat ≠ i) (res : ResourceList) :
    zoneAt (setZoneResources zs i res) j = zoneAt zs j := by
  unfold zoneAt
  split
  · rfl
  · exact getElem?_setZoneResources_ne zs h res

theorem totalAvailable_nonneg {zs : NUMANodeList} (hz : zonesNonneg zs)
    (r : ResourceName) : 0 ≤ totalAvailable zs r := by
  induction zs with
  | nil => simp [totalAvailable]
  | cons nn rest ih =>
    have h1 : 0 ≤ (rlLookup nn.Resources r).getD 0 := by
      cases hv : rlLookup nn.Resources r with
      | none => simp
      | some v => simpa using rlLookup_nonneg (hz nn (by simp)) hv
    have h2 := ih (fun y hy => hz y (by simp [hy]))
    simpa [totalAvailable] using add_nonneg h1 h2

theorem zoneEntryAt_nonneg {zs : NUMANodeList} (hz : zonesNonneg zs) (j : Int)
    (r : ResourceName) : 0 ≤ (zoneEntryAt zs j r).getD 0 := by
  unfold zoneEntryAt
  cases hzz : zoneAt zs j with
  | none => simp
  | some nn =>
    cases hv : rlLookup nn.Resources r with
    | none => simp [hv]
    | some v =>
      simpa [hv] using rlLookup_nonneg (hz nn (mem_of_zoneAt hzz)) hv

theorem listedAvailable_nonneg {zs : NUMANodeList} (hz : zonesNonneg zs)
    (nodes : List Int) (r : ResourceName) : 0 ≤ listedAvailable zs nodes r := by
  unfold listedAvailable
  refine List.sum_nonneg ?_
  intro x hx
  simp only [List.mem_map] at hx
  obtain ⟨j, _, rfl⟩ := hx
  exact zoneEntryAt_nonneg hz j r

theorem listedAvailable_cons (zs : NUMANodeList) (n : Int) (nodes : List Int)
    (r : ResourceName) :
    listedAvailable zs (n :: nodes) r =
      (zoneEntryAt zs n r).getD 0 + listedAvailable zs nodes r := by
  simp [listedAvailable, zoneEntryAt]

theorem totalAvailable_congr (r : ResourceName) :
    ∀ zs zs' : NUMANodeList, zs'.length = zs.length →
    (∀ i, zoneEntry zs' i r = zoneEntry zs i r) →
    totalAvailable zs' r = totalAvailable zs r := by
  intro zs
  induction zs with
  | nil =>
    intro zs' hl _
    cases zs' with
    | nil => rfl
    | cons a b => simp at hl
  | cons nn rest ih =>
    intro zs' hl he
    cases zs' with
    | nil => simp at hl
    | cons nn' rest' =>
      have h0 := he 0
      simp only [zoneEntry, List.getElem?_cons_zero] at h0
      have htail : totalAvailable rest' r = totalAvailable rest r := by
        refine ih rest' (by simpa using hl) ?_
        intro i
        have := he (i + 1)
        simpa [zoneEntry] using this
      simp [totalAvailable, h0, htail]

theorem zoneAt_eq_some {zs : NUMANodeList} {j : Int} {nn : NUMANode}
    (h : zoneAt zs j = some nn) : 0 ≤ j ∧ zs[j.toNat]? = some nn := by
  by_cases hj : j < 0
  · simp [zoneAt, hj] at h
  · rw [zoneAt, if_neg hj] at h
    exact ⟨by omega, h⟩

theorem zoneEntry_eq_bind (zs : NUMANodeList) (i : Nat) (r : ResourceName) :
    zoneEntry zs i r = (zs[i]?).bind fun nn => rlLookup nn.Resources r := by
  unfold zoneEntry
  cases zs[i]? <;> rfl

theorem zoneEntryAt_neg {zs : NUMANodeList} {r : ResourceName} {j : Int} (hj : j < 0) :
    zoneEntryAt zs j r = none := by
  simp [zoneEntryAt, zoneAt, hj]

theorem zoneEntryAt_of_nonneg {zs : NUMANodeList} {r : ResourceName} {j : Int}
    (hj : ¬j < 0) : zoneEntryAt zs j r = zoneEntry zs j.toNat r := by
  rw [zoneEntryAt, zoneAt, if_neg hj, zoneEntry_eq_bind]

theorem zoneEntryAt_congr {zs zs' : NUMANodeList} {r : ResourceName}
    (h : ∀ i, zoneEntry zs' i r = zoneEntry zs i r) (j : Int) :
    zoneEntryAt zs' j r = zoneEntryAt zs j r := by
  by_cases hj : j < 0
  · rw [zoneEntryAt_neg hj, zoneEntryAt_neg hj]
  · rw [zoneEntryAt_of_nonneg hj, zoneEntryAt_of_nonneg hj, h]

theorem listedAvailable_congr {zs zs' : NUMANodeList} {nodes : List Int} {r : ResourceName}
    (h : ∀ m ∈ nodes, zoneEntryAt zs' m r = zoneEntryAt zs m r) :
    listedAvailable zs' nodes r = listedAvailable zs nodes r := by
  have h' : ∀ m ∈ nodes, ((zoneAt zs' m).bind fun nn => rlLookup nn.Resources r)
      = ((zoneAt zs m).bind fun nn => rlLookup nn.Resources r) := h
  unfold listedAvailable
  congr 1
  exact List.map_congr_left fun m hm => by rw [h' m hm]

theorem rlLookup_eq_none_of_not_mem {rl : ResourceList} {n : ResourceName}
    (h : n ∉ rl.map Prod.fst) : rlLookup rl n = none := by
  induction rl with
  | nil => rfl
  | cons p rest ih =>
    obtain ⟨k, v⟩ := p
    simp only [List.map_cons, List.mem_cons] at h
    push_neg at h
    simp only [rlLookup, if_neg (fun hh : k = n => h.1 hh.symm)]
    exact ih h.2

theorem validNodes_zoneAt_isSome {zs : NUMANodeList} {nodes : List Int}
    (hval : validNodes zs nodes) {n : Int} (hn : n ∈ nodes) :
    ∃ nn, zoneAt zs n = some nn := by
  obtain ⟨h0, hlt⟩ := hval n hn
  rw [zoneAt, if_neg (by omega)]
  rw [List.getElem?_eq_getElem hlt]
  exact ⟨_, rfl⟩

theorem validNodes_of_length_eq {zs zs' : NUMANodeList} {nodes : List Int}
    (hlen : zs'.length = zs.length) (hval : validNodes zs nodes) :
    validNodes zs' nodes := by
  intro n hn
  obtain ⟨h0, hlt⟩ := hval n hn
  exact ⟨h0, by omega⟩

theorem validNodes_tail {zs : NUMANodeList} {node : Int} {rest : List Int}
    (hval : validNodes zs (node :: rest)) : validNodes zs rest :=
  fun n hn => hval n (List.mem_cons_of_mem _ hn)

/-! ### Behaviour of the inner scan -/

/-- If the remaining requested quantity is zero, the scan over zones stops
immediately: no zone is inspected or modified (plugin.go lines 51-53). -/
theorem subtractInner_zero (resName : ResourceName) (zs : NUMANodeList)
    (nodes : List Int) : subtractInner resName 0 zs nodes = some (0, zs) := by
  cases nodes <;> simp [subtractInner]

/-- A scan for a resource kind that no listed zone carries leaves every zone
untouched and never reduces the remaining quantity (plugin.go line 56). -/
theorem subtractInner_no_entry (resName : ResourceName) :
    ∀ (nodes : List Int) (q : Quantity) (zs : NUMANodeList),
      validNodes zs nodes →
      (∀ n ∈ nodes, zoneEntryAt zs n resName = none) →
      subtractInner resName q zs nodes = some (q, zs) := by
  intro nodes
  induction nodes with
  | nil => intro q zs _ _; rfl
  | cons node rest ih =>
    intro q zs hval habs
    by_cases hq : q = 0
    · simp [subtractInner, hq]
    · obtain ⟨nn, hnn⟩ := validNodes_zoneAt_isSome hval (List.mem_cons_self _ _)
      have hlook : rlLookup nn.Resources resName = none := by
        have := habs node (List.mem_cons_self _ _)
        rw [zoneEntryAt, hnn] at this
        simpa using this
      have hrest := ih q zs (validNodes_tail hval)
        (fun n hn => habs n (List.mem_cons_of_mem _ hn))
      simp [subtractInner, hq, hnn, hlook, hrest]

/-- With every listed node id in range, the inner scan cannot panic and
preserves the number of zones. -/
theorem subtractInner_total (resName : ResourceName) :
    ∀ (nodes : List Int) (q : Quantity) (zs : NUMANodeList),
      validNodes zs nodes →
      ∃ q' zs', subtractInner resName q zs nodes = some (q', zs') ∧
        zs'.length = zs.length := by
  intro nodes
  induction nodes with
  | nil => intro q zs _; exact ⟨q, zs, rfl, rfl⟩
  | cons node rest ih =>
    intro q zs hval
    by_cases hq : q = 0
    · exact ⟨q, zs, by simp [subtractInner, hq], rfl⟩
    · obtain ⟨nn, hnn⟩ := validNodes_zoneAt_isSome hval (List.mem_cons_self _ _)
      cases hlook : rlLookup nn.Resources resName with
      | none =>
        obtain ⟨q', zs', hrec, hlen⟩ := ih q zs (validNodes_tail hval)
        exact ⟨q', zs', by simp [subtractInner, hq, hnn, hlook, hrec], hlen⟩
      | some available =>
        cases hcmp : compare q available with
        | eq =>
          obtain ⟨q', zs', hrec, hlen⟩ := ih (q - available)
            (setZoneResources zs node.toNat (rlSet nn.Resources resName 0))
            (validNodes_of_length_eq (length_setZoneResources _ _ _) (validNodes_tail hval))
          exact ⟨q', zs', by simp [subtractInner, hq, hnn, hlook, hcmp, hrec],
            by rw [hlen, length_setZoneResources]⟩
        | gt =>
          obtain ⟨q', zs', hrec, hlen⟩ := ih (q - available)
            (setZoneResources zs node.toNat (rlSet nn.Resources resName 0))
            (validNodes_of_length_eq (length_setZoneResources _ _ _) (validNodes_tail hval))
          exact ⟨q', zs', by simp [subtractInner, hq, hnn, hlook, hcmp, hrec],
            by rw [hlen, length_setZoneResources]⟩
        | lt =>
          obtain ⟨q', zs', hrec, hlen⟩ := ih 0
            (setZoneResources zs node.toNat (rlSet nn.Resources resName (available - q)))
            (validNodes_of_length_eq (length_setZoneResources _ _ _) (validNodes_tail hval))
          exact ⟨q', zs', by simp [subtractInner, hq, hnn, hlook, hcmp, hrec],
            by rw [hlen, length_setZoneResources]⟩

theorem zoneEntry_update_other {zs : NUMANodeList} {node : Int} {nn : NUMANode}
    (hnn : zoneAt zs node = some nn) (resName : ResourceName) (X : Quantity)
    (i : Nat) (r : ResourceName) (hr : r ≠ resName) :
    zoneEntry (setZoneResources zs node.toNat (rlSet nn.Resources resName X)) i r =
      zoneEntry zs i r := by
  obtain ⟨hj, hget⟩ := zoneAt_eq_some hnn
  rw [zoneEntry_eq_bind, zoneEntry_eq_bind]
  by_cases hi : i = node.toNat
  · subst hi
    rw [getElem?_setZoneResources_self hget, hget]
    simp [rlLookup_rlSet_ne _ _ hr]
  · rw [getElem?_setZoneResources_ne _ hi]

theorem zoneEntry_update_none_iff {zs : NUMANodeList} {node : Int} {nn : NUMANode}
    (hnn : zoneAt zs node = some nn) {resName : ResourceName} {available : Quantity}
    (hava : rlLookup nn.Resources resName = some available) (X : Quantity) (i : Nat) :
    (zoneEntry (setZoneResources zs node.toNat (rlSet nn.Resources resName X)) i resName
        = none ↔ zoneEntry zs i resName = none) := by
  obtain ⟨hj, hget⟩ := zoneAt_eq_some hnn
  rw [zoneEntry_eq_bind, zoneEntry_eq_bind]
  by_cases hi : i = node.toNat
  · subst hi
    rw [getElem?_setZoneResources_self hget, hget]
    simp [rlLookup_rlSet_self, hava]
  · rw [getElem?_setZoneResources_ne _ hi]

/-- The inner scan only rewrites ledger entries of its own resource kind, and
creates or deletes no entry: zone count, entries of every other kind, and the
presence of the scanned kind's entries are all preserved. -/
theorem subtractInner_frame (resName : ResourceName) :
    ∀ (nodes : List Int) (q : Quantity) (zs : NUMANodeList) (q' : Quantity)
      (zs' : NUMANodeList),
      subtractInner resName q zs nodes = some (q', zs') →
      zs'.length = zs.length ∧
      (∀ i r, r ≠ resName → zoneEntry zs' i r = zoneEntry zs i r) ∧
      (∀ i, (zoneEntry zs' i resName = none ↔ zoneEntry zs i resName = none)) := by
  intro nodes
  induction nodes with
  | nil =>
    intro q zs q' zs' h
    simp only [subtractInner, Option.some.injEq, Prod.mk.injEq] at h
    rw [← h.2]
    exact ⟨rfl, fun _ _ _ => rfl, fun _ => Iff.rfl⟩
  | cons node rest ih =>
    intro q zs q' zs' h
    by_cases hq : q = 0
    · simp only [subtractInner, if_pos hq, Option.some.injEq, Prod.mk.injEq] at h
      rw [← h.2]
      exact ⟨rfl, fun _ _ _ => rfl, fun _ => Iff.rfl⟩
    · cases hnn : zoneAt zs node with
      | none => simp [subtractInner, hq, hnn] at h
      | some nn =>
        cases hlook : rlLookup nn.Resources resName with
        | none =>
          simp only [subtractInner, if_neg hq, hnn, hlook] at h
          exact ih q zs q' zs' h
        | some available =>
          cases hcmp : compare q available with
          | eq =>
            simp only [subtractInner, if_neg hq, hnn, hlook, hcmp] at h
            obtain ⟨hlen, hoth, hiff⟩ := ih _ _ _ _ h
            refine ⟨by rw [hlen, length_setZoneResources], ?_, ?_⟩
            · intro i r hr
              rw [hoth i r hr, zoneEntry_update_other hnn resName 0 i r hr]
            · intro i
              exact (hiff i).trans (zoneEntry_update_none_iff hnn hlook 0 i)
          | gt =>
            simp only [subtractInner, if_neg hq, hnn, hlook, hcmp] at h
            obtain ⟨hlen, hoth, hiff⟩ := ih _ _ _ _ h
            refine ⟨by rw [hlen, length_setZoneResources], ?_, ?_⟩
            · intro i r hr
              rw [hoth i r hr, zoneEntry_update_other hnn resName 0 i r hr]
            · intro i
              exact (hiff i).trans (zoneEntry_update_none_iff hnn hlook 0 i)
          | lt =>
            simp only [subtractInner, if_neg hq, hnn, hlook, hcmp] at h
            obtain ⟨hlen, hoth, hiff⟩ := ih _ _ _ _ h
            refine ⟨by rw [hlen, length_setZoneResources], ?_, ?_⟩
            · intro i r hr
              rw [hoth i r hr, zoneEntry_update_other hnn resName (available - q) i r hr]
            · intro i
              exact (hiff i).trans
                (zoneEntry_update_none_iff hnn hlook (available - q) i)

/-- All entries written by the inner scan are non-negative (either zero, or
`available - quantity` on the `-1` branch where `quantity < available`), so
non-negative ledgers stay non-negative — no hypothesis on the request. -/
theorem subtractInner_zonesNonneg (resName : ResourceName) :
    ∀ (nodes : List Int) (q : Quantity) (zs : NUMANodeList) (q' : Quantity)
      (zs' : NUMANodeList),
      zonesNonneg zs →
      subtractInner resName q zs nodes = some (q', zs') →
      zonesNonneg zs' := by
  intro nodes
  induction nodes with
  | nil =>
    intro q zs q' zs' hz h
    simp only [subtractInner, Option.some.injEq, Prod.mk.injEq] at h
    rw [← h.2]; exact hz
  | cons node rest ih =>
    intro q zs q' zs' hz h
    by_cases hq : q = 0
    · simp only [subtractInner, if_pos hq, Option.some.injEq, Prod.mk.injEq] at h
      rw [← h.2]; exact hz
    · cases hnn : zoneAt zs node with
      | none => simp [subtractInner, hq, hnn] at h
      | some nn =>
        have hznn : ∀ p ∈ nn.Resources, 0 ≤ p.2 := hz nn (mem_of_zoneAt hnn)
        cases hlook : rlLookup nn.Resources resName with
        | none =>
          simp only [subtractInner, if_neg hq, hnn, hlook] at h
          exact ih q zs q' zs' hz h
        | some available =>
          cases hcmp : compare q available with
          | eq =>
            simp only [subtractInner, if_neg hq, hnn, hlook, hcmp] at h
            exact ih _ _ _ _
              (zonesNonneg_setZoneResources (rlSet_nonneg hznn le_rfl) zs node.toNat hz) h
          | gt =>
            simp only [subtractInner, if_neg hq, hnn, hlook, hcmp] at h
            exact ih _ _ _ _
              (zonesNonneg_setZoneResources (rlSet_nonneg hznn le_rfl) zs node.toNat hz) h
          | lt =>
            simp only [subtractInner, if_neg hq, hnn, hlook, hcmp] at h
            have hlt : q < available := compare_lt_iff_lt.mp hcmp
            exact ih _ _ _ _
              (zonesNonneg_setZoneResources
                (rlSet_nonneg hznn (sub_nonneg.mpr hlt.le)) zs node.toNat hz) h

theorem update_step_facts {zs : NUMANodeList} {node : Int} {nn : NUMANode}
    {rest : List Int} (hnn : zoneAt zs node = some nn) {resName : ResourceName}
    {available : Quantity} (hlook : rlLookup nn.Resources resName = some available)
    (hval : validNodes zs (node :: rest)) (hnotmem : node ∉ rest)
    (hz : zonesNonneg zs) (X : Quantity) (hX : 0 ≤ X) :
    zonesNonneg (setZoneResources zs node.toNat (rlSet nn.Resources resName X)) ∧
    validNodes (setZoneResources zs node.toNat (rlSet nn.Resources resName X)) rest ∧
    listedAvailable (setZoneResources zs node.toNat (rlSet nn.Resources resName X))
        rest resName = listedAvailable zs rest resName ∧
    totalAvailable (setZoneResources zs node.toNat (rlSet nn.Resources resName X))
        resName = totalAvailable zs resName - available + X := by
  obtain ⟨hj0, hget⟩ := zoneAt_eq_some hnn
  refine ⟨?_, ?_, ?_, ?_⟩
  · exact zonesNonneg_setZoneResources
      (rlSet_nonneg (hz nn (mem_of_zoneAt hnn)) hX) zs node.toNat hz
  · exact validNodes_of_length_eq (length_setZoneResources _ _ _) (validNodes_tail hval)
  · refine listedAvailable_congr fun m hm => ?_
    have hm0 : 0 ≤ m := (hval m (List.mem_cons_of_mem _ hm)).1
    have hn0 : 0 ≤ node := (hval node (List.mem_cons_self _ _)).1
    have hmne : m ≠ node := fun hh => hnotmem (hh ▸ hm)
    have hne : m.toNat ≠ node.toNat := by omega
    unfold zoneEntryAt
    rw [zoneAt_setZoneResources_ne hne]
  · rw [totalAvailable_setZoneResources hget, hlook, rlLookup_rlSet_self]
    simp

/-- Conservation of the inner scan for one resource kind: over a
duplicate-free in-range node order and a non-negative ledger, the final
remaining quantity is the request clipped by the listed availability, and
the inventory total drops by exactly the amount taken off the request. -/
theorem subtractInner_conservation (resName : ResourceName) :
    ∀ (nodes : List Int) (q : Quantity) (zs : NUMANodeList) (q' : Quantity)
      (zs' : NUMANodeList),
      validNodes zs nodes → nodes.Nodup → 0 ≤ q → zonesNonneg zs →
      subtractInner resName q zs nodes = some (q', zs') →
      q' = max (q - listedAvailable zs nodes resName) 0 ∧
      totalAvailable zs' resName = totalAvailable zs resName - (q - q') := by
  intro nodes
  induction nodes with
  | nil =>
    intro q zs q' zs' _ _ hq0 hz h
    simp only [subtractInner, Option.some.injEq, Prod.mk.injEq] at h
    obtain ⟨rfl, rfl⟩ := h
    constructor
    · simp only [listedAvailable, List.map_nil, List.sum_nil]
      rw [sub_zero, max_eq_left hq0]
    · ring
  | cons node rest ih =>
    intro q zs q' zs' hval hnd hq0 hz h
    have hLrest : 0 ≤ listedAvailable zs rest resName :=
      listedAvailable_nonneg hz rest resName
    have hcons := listedAvailable_cons zs node rest resName
    by_cases hq : q = 0
    · simp only [subtractInner, if_pos hq, Option.some.injEq, Prod.mk.injEq] at h
      obtain ⟨rfl, rfl⟩ := h
      subst hq
      have hent := zoneEntryAt_nonneg hz node resName
      constructor
      · rw [hcons, max_eq_right (by linarith)]
      · simp
    · obtain ⟨nn, hnn⟩ := validNodes_zoneAt_isSome hval (List.mem_cons_self _ _)
      obtain ⟨hnotmem, hndrest⟩ := List.nodup_cons.mp hnd
      have hvalrest := validNodes_tail hval
      cases hlook : rlLookup nn.Resources resName with
      | none =>
        simp only [subtractInner, if_neg hq, hnn, hlook] at h
        obtain ⟨h1, h2⟩ := ih q zs q' zs' hvalrest hndrest hq0 hz h
        have hent : (zoneEntryAt zs node resName).getD 0 = 0 := by
          rw [zoneEntryAt, hnn]
          simp [hlook]
        refine ⟨?_, h2⟩
        rw [hcons, hent, zero_add]
        exact h1
      | some available =>
        have hava0 : 0 ≤ available :=
          rlLookup_nonneg (hz nn (mem_of_zoneAt hnn)) hlook
        have hent : (zoneEntryAt zs node resName).getD 0 = available := by
          rw [zoneEntryAt, hnn]
          simp [hlook]
        cases hcmp : compare q available with
        | eq =>
          have heq : q = available := compare_eq_iff_eq.mp hcmp
          simp only [subtractInner, if_neg hq, hnn, hlook, hcmp] at h
          obtain ⟨hz1, hval1, hL1, htot1⟩ :=
            update_step_facts hnn hlook hval hnotmem hz 0 le_rfl
          obtain ⟨h1, h2⟩ := ih _ _ _ _ hval1 hndrest (sub_nonneg.mpr heq.ge) hz1 h
          rw [hL1] at h1
          constructor
          · rw [hcons, hent, ← sub_sub]
            exact h1
          · rw [h2, htot1]
            ring
        | gt =>
          have hgt : available < q := compare_gt_iff_gt.mp hcmp
          simp only [subtractInner, if_neg hq, hnn, hlook, hcmp] at h
          obtain ⟨hz1, hval1, hL1, htot1⟩ :=
            update_step_facts hnn hlook hval hnotmem hz 0 le_rfl
          obtain ⟨h1, h2⟩ := ih _ _ _ _ hval1 hndrest (sub_nonneg.mpr hgt.le) hz1 h
          rw [hL1] at h1
          constructor
          · rw [hcons, hent, ← sub_sub]
            exact h1
          · rw [h2, htot1]
            ring
        | lt =>
          have hlt : q < available := compare_lt_iff_lt.mp hcmp
          simp only [subtractInner, if_neg hq, hnn, hlook, hcmp] at h
          obtain ⟨hz1, hval1, hL1, htot1⟩ :=
            update_step_facts hnn hlook hval hnotmem hz (available - q)
              (sub_nonneg.mpr hlt.le)
          obtain ⟨h1, h2⟩ := ih _ _ _ _ hval1 hndrest le_rfl hz1 h
          rw [hL1] at h1
          have hq'0 : q' = 0 := by
            rw [h1, max_eq_right (by linarith)]
          constructor
          · rw [hcons, hent, hq'0, max_eq_right (by linarith)]
          · rw [h2, htot1, hq'0]
            ring

theorem sub_max_self_sub (a b : Int) : a - max (a - b) 0 = min a b := by
  omega

/-! ### Behaviour of the whole subtraction -/

/-- With every listed node id in range, `subtractFromNUMAs` cannot panic. -/
theorem subtractFromNUMAs_isSome :
    ∀ (resources : ResourceList) (zs : NUMANodeList) (nodes : List Int),
      validNodes zs nodes → (subtractFromNUMAs resources zs nodes).isSome := by
  intro resources
  induction resources with
  | nil => intro zs nodes _; simp [subtractFromNUMAs]
  | cons p rest ih =>
    intro zs nodes hval
    obtain ⟨k, v⟩ := p
    obtain ⟨q', zs', hsub, hlen⟩ := subtractInner_total k nodes v zs hval
    simp only [subtractFromNUMAs, hsub]
    exact ih zs' nodes (validNodes_of_length_eq hlen hval)

/-- `subtractFromNUMAs` preserves the zone count and never creates or
deletes a ledger entry. -/
theorem subtractFromNUMAs_frame :
    ∀ (resources : ResourceList) (zs : NUMANodeList) (nodes : List Int)
      (zs' : NUMANodeList),
      subtractFromNUMAs resources zs nodes = some zs' →
      zs'.length = zs.length ∧
      ∀ i r, (zoneEntry zs' i r = none ↔ zoneEntry zs i r = none) := by
  intro resources
  induction resources with
  | nil =>
    intro zs nodes zs' h
    simp only [subtractFromNUMAs, Option.some.injEq] at h
    subst h
    exact ⟨rfl, fun _ _ => Iff.rfl⟩
  | cons p rest ih =>
    intro zs nodes zs' h
    obtain ⟨k, v⟩ := p
    cases hsub : subtractInner k v zs nodes with
    | none => simp [subtractFromNUMAs, hsub] at h
    | some p1 =>
      obtain ⟨q1, zs1⟩ := p1
      simp only [subtractFromNUMAs, hsub] at h
      obtain ⟨hlen1, hoth, hiff⟩ := subtractInner_frame k nodes v zs q1 zs1 hsub
      obtain ⟨hlen2, hiff2⟩ := ih zs1 nodes zs' h
      refine ⟨hlen2.trans hlen1, fun i r => (hiff2 i r).trans ?_⟩
      by_cases hr : r = k
      · subst hr
        exact hiff i
      · rw [hoth i r hr]

/-- Non-negative ledgers stay non-negative across the whole subtraction. -/
theorem subtractFromNUMAs_zonesNonneg :
    ∀ (resources : ResourceList) (zs : NUMANodeList) (nodes : List Int)
      (zs' : NUMANodeList),
      zonesNonneg zs → subtractFromNUMAs resources zs nodes = some zs' →
      zonesNonneg zs' := by
  intro resources
  induction resources with
  | nil =>
    intro zs nodes zs' hz h
    simp only [subtractFromNUMAs, Option.some.injEq] at h
    subst h
    exact hz
  | cons p rest ih =>
    intro zs nodes zs' hz h
    obtain ⟨k, v⟩ := p
    cases hsub : subtractInner k v zs nodes with
    | none => simp [subtractFromNUMAs, hsub] at h
    | some p1 =>
      obtain ⟨q1, zs1⟩ := p1
      simp only [subtractFromNUMAs, hsub] at h
      exact ih zs1 nodes zs' (subtractInner_zonesNonneg k nodes v zs q1 zs1 hz hsub) h

/-- A request whose quantities are all zero leaves the inventory unchanged
(without even requiring node ids to be in range). -/
theorem subtractFromNUMAs_zero_request :
    ∀ (resources : ResourceList) (zs : NUMANodeList) (nodes : List Int),
      (∀ p ∈ resources, p.2 = 0) →
      subtractFromNUMAs resources zs nodes = some zs := by
  intro resources
  induction resources with
  | nil => intro zs nodes _; rfl
  | cons p rest ih =>
    intro zs nodes h0
    obtain ⟨k, v⟩ := p
    have hv : v = 0 := h0 (k, v) (List.mem_cons_self _ _)
    subst hv
    simp only [subtractFromNUMAs, subtractInner_zero]
    exact ih zs nodes fun p hp => h0 p (List.mem_cons_of_mem _ hp)

/-- A resource kind carried by no listed zone is left alone: every zone's
entries for that kind are unchanged by the whole subtraction. -/
theorem subtractFromNUMAs_absent (r : ResourceName) :
    ∀ (resources : ResourceList) (zs : NUMANodeList) (nodes : List Int)
      (zs' : NUMANodeList),
      validNodes zs nodes →
      (∀ n ∈ nodes, zoneEntryAt zs n r = none) →
      subtractFromNUMAs resources zs nodes = some zs' →
      ∀ i, zoneEntry zs' i r = zoneEntry zs i r := by
  intro resources
  induction resources with
  | nil =>
    intro zs nodes zs' _ _ h i
    simp only [subtractFromNUMAs, Option.some.injEq] at h
    subst h
    rfl
  | cons p rest ih =>
    intro zs nodes zs' hval habs h i
    obtain ⟨k, v⟩ := p
    cases hsub : subtractInner k v zs nodes with
    | none => simp [subtractFromNUMAs, hsub] at h
    | some p1 =>
      obtain ⟨q1, zs1⟩ := p1
      simp only [subtractFromNUMAs, hsub] at h
      by_cases hk : k = r
      · subst hk
        rw [subtractInner_no_entry k nodes v zs hval habs] at hsub
        simp only [Option.some.injEq, Prod.mk.injEq] at hsub
        obtain ⟨-, rfl⟩ := hsub
        exact ih zs nodes zs' hval habs h i
      · obtain ⟨hlen1, hoth, -⟩ := subtractInner_frame k nodes v zs q1 zs1 hsub
        have hent1 : ∀ j, zoneEntry zs1 j r = zoneEntry zs j r :=
          fun j => hoth j r fun hh => hk hh.symm
        have habs1 : ∀ n ∈ nodes, zoneEntryAt zs1 n r = none := fun n hn => by
          rw [zoneEntryAt_congr hent1 n]
          exact habs n hn
        rw [ih zs1 nodes zs' (validNodes_of_length_eq hlen1 hval) habs1 h i, hent1 i]

/-- Conservation for the whole subtraction: for every resource kind, the
inventory total drops by exactly `min(requested, listed availability)`. -/
theorem subtractFromNUMAs_conservation :
    ∀ (resources : ResourceList) (zs : NUMANodeList) (nodes : List Int)
      (zs' : NUMANodeList),
      validNodes zs nodes → nodes.Nodup → (resources.map Prod.fst).Nodup →
      (∀ p ∈ resources, 0 ≤ p.2) → zonesNonneg zs →
      subtractFromNUMAs resources zs nodes = some zs' →
      ∀ r, totalAvailable zs r - totalAvailable zs' r =
        min (requestedAmount resources r) (listedAvailable zs nodes r) := by
  intro resources
  induction resources with
  | nil =>
    intro zs nodes zs' _ _ _ _ hz h r
    simp only [subtractFromNUMAs, Option.some.injEq] at h
    subst h
    have hL := listedAvailable_nonneg hz nodes r
    rw [requestedAmount, rlLookup]
    simp only [Option.getD_none, sub_self]
    rw [min_eq_left hL]
  | cons p rest ih =>
    intro zs nodes zs' hval hnd hkeys hreq hz h r
    obtain ⟨k, v⟩ := p
    cases hsub : subtractInner k v zs nodes with
    | none => simp [subtractFromNUMAs, hsub] at h
    | some p1 =>
      obtain ⟨q1, zs1⟩ := p1
      simp only [subtractFromNUMAs, hsub] at h
      have hv0 : 0 ≤ v := hreq (k, v) (List.mem_cons_self _ _)
      obtain ⟨hq1eq, htot1⟩ :=
        subtractInner_conservation k nodes v zs q1 zs1 hval hnd hv0 hz hsub
      obtain ⟨hlen1, hoth, hiff⟩ := subtractInner_frame k nodes v zs q1 zs1 hsub
      have hz1 : zonesNonneg zs1 := subtractInner_zonesNonneg k nodes v zs q1 zs1 hz hsub
      have hval1 : validNodes zs1 nodes := validNodes_of_length_eq hlen1 hval
      have hrec := ih zs1 nodes zs' hval1 hnd (List.nodup_cons.mp hkeys).2
        (fun p hp => hreq p (List.mem_cons_of_mem _ hp)) hz1 h
      by_cases hr : r = k
      · subst hr
        have hreqamt : requestedAmount ((r, v) :: rest) r = v := by
          rw [requestedAmount, rlLookup]
          simp
        have hrest0 : requestedAmount rest r = 0 := by
          rw [requestedAmount,
            rlLookup_eq_none_of_not_mem (List.nodup_cons.mp hkeys).1]
          rfl
        have hrecr := hrec r
        rw [hrest0, min_eq_left (listedAvailable_nonneg hz1 nodes r)] at hrecr
        rw [hreqamt]
        calc totalAvailable zs r - totalAvailable zs' r
            = v - q1 := by linarith
          _ = min v (listedAvailable zs nodes r) := by
              rw [hq1eq, sub_max_self_sub]
      · have hentner : ∀ i, zoneEntry zs1 i r = zoneEntry zs i r :=
          fun i => hoth i r hr
        have htoteq : totalAvailable zs1 r = totalAvailable zs r :=
          totalAvailable_congr r zs zs1 hlen1 hentner
        have hlisteq : listedAvailable zs1 nodes r = listedAvailable zs nodes r :=
          listedAvailable_congr fun m _ => zoneEntryAt_congr hentner m
        have hreqamt : requestedAmount ((k, v) :: rest) r = requestedAmount rest r := by
          rw [requestedAmount, requestedAmount, rlLookup,
            if_neg (fun hh : k = r => hr hh.symm)]
        have hrecr := hrec r
        rw [htoteq, hlisteq] at hrecr
        rw [hreqamt]
        exact hrecr

/-! ### The state-threaded loop only rewrites the zone ledger -/

theorem subtractInnerS_eq (resName : ResourceName) :
    ∀ (nodes : List Int) (q : Quantity) (s : SubtractState),
      subtractInnerS resName q s nodes =
        (subtractInner resName q s.numaNodes nodes).map
          fun p => { s with numaNodes := p.2 } := by
  intro nodes
  induction nodes with
  | nil => intro q s; rfl
  | cons node rest ih =>
    intro q s
    by_cases hq : q = 0
    · simp [subtractInnerS, subtractInner, hq]
    · cases hnn : zoneAt s.numaNodes node with
      | none => simp [subtractInnerS, subtractInner, hq, hnn]
      | some nn =>
        cases hlook : rlLookup nn.Resources resName with
        | none =>
          simp only [subtractInnerS, subtractInner, if_neg hq, hnn, hlook]
          exact ih q s
        | some available =>
          cases hcmp : compare q available with
          | eq =>
            simp only [subtractInnerS, subtractInner, if_neg hq, hnn, hlook, hcmp]
            rw [ih]
          | gt =>
            simp only [subtractInnerS, subtractInner, if_neg hq, hnn, hlook, hcmp]
            rw [ih]
          | lt =>
            simp only [subtractInnerS, subtractInner, if_neg hq, hnn, hlook, hcmp]
            rw [ih]

theorem subtractLoopS_eq :
    ∀ (l : List (ResourceName × Quantity)) (s : SubtractState),
      subtractLoopS l s =
        (subtractFromNUMAs l s.numaNodes s.nodes).map
          fun zs' => { s with numaNodes := zs' } := by
  intro l
  induction l with
  | nil => intro s; rfl
  | cons p rest ih =>
    intro s
    obtain ⟨k, v⟩ := p
    simp only [subtractLoopS, subtractFromNUMAs, subtractInnerS_eq]
    cases hsub : subtractInner k v s.numaNodes s.nodes with
    | none => rfl
    | some p1 =>
      obtain ⟨q1, zs1⟩ := p1
      simp only [Option.map_some']
      rw [ih]

/-- The whole state-threaded subtraction only rewrites the `numaNodes`
field: it agrees with `subtractFromNUMAs` there and keeps the other two
fields. -/
theorem subtractFromNUMAsS_eq (s : SubtractState) :
    subtractFromNUMAsS s =
      (subtractFromNUMAs s.resources s.numaNodes s.nodes).map
        fun zs' => { s with numaNodes := zs' } :=
  subtractLoopS_eq s.resources s

/-! ### Weight-map construction -/

theorem foldl_rlSet_lookup_not_mem :
    ∀ (l : List ResourceSpec) (acc : resourceToWeightMap) (k : ResourceName),
      k ∉ l.map ResourceSpec.Name →
      rlLookup (l.foldl (fun m r => rlSet m r.Name r.Weight) acc) k =
        rlLookup acc k := by
  intro l
  induction l with
  | nil => intro acc k _; rfl
  | cons x rest ih =>
    intro acc k hk
    simp only [List.map_cons, List.mem_cons] at hk
    push_neg at hk
    rw [List.foldl_cons, ih _ k hk.2, rlLookup_rlSet_ne _ _ hk.1]

theorem foldl_rlSet_lookup :
    ∀ (l : List ResourceSpec) (acc : resourceToWeightMap),
      (l.map ResourceSpec.Name).Nodup →
      ∀ rs ∈ l,
        rlLookup (l.foldl (fun m r => rlSet m r.Name r.Weight) acc) rs.Name =
          some rs.Weight := by
  intro l
  induction l with
  | nil => intro acc _ rs h; simp at h
  | cons x rest ih =>
    intro acc hnd rs hrs
    simp only [List.map_cons, List.nodup_cons] at hnd
    rcases List.mem_cons.mp hrs with rfl | hmem
    · rw [List.foldl_cons, foldl_rlSet_lookup_not_mem rest _ _ hnd.1,
        rlLookup_rlSet_self]
    · exact ih _ hnd.2 rs hmem

/-- With duplicate-free configured resource names, the constructed weight
map binds each configured resource name to its configured weight. -/
theorem buildResourceToWeightMap_lookup {l : List ResourceSpec}
    (hnd : (l.map ResourceSpec.Name).Nodup) :
    ∀ rs ∈ l, rlLookup (buildResourceToWeightMap l) rs.Name = some rs.Weight :=
  foldl_rlSet_lookup l [] hnd

/-! ### The claims -/

/-- C1: for every resource request, zone inventory and zone order whose
listed zone ids are valid indices (a zone order lists distinct zones; Go
map keys are unique; quantities are non-negative per the data model),
after `subtractFromNUMAs` runs the total subtracted across all zones for
any resource kind equals `min(requested, total available across the
listed zones)`, and never exceeds the pre-subtraction total available for
that kind. -/
theorem subtractFromNUMAs_conservation_claim
    (resources : ResourceList) (numaNodes : NUMANodeList) (nodes : List Int)
    (numaNodes' : NUMANodeList)
    (hval : validNodes numaNodes nodes) (hnd : nodes.Nodup)
    (hkeys : (resources.map Prod.fst).Nodup)
    (hreq : ∀ p ∈ resources, 0 ≤ p.2) (hz : zonesNonneg numaNodes)
    (h : subtractFromNUMAs resources numaNodes nodes = some numaNodes') :
    ∀ r, totalAvailable numaNodes r - totalAvailable numaNodes' r =
        min (requestedAmount resources r) (listedAvailable numaNodes nodes r) ∧
      totalAvailable numaNodes r - totalAvailable numaNodes' r ≤
        totalAvailable numaNodes r := by
  intro r
  have hcons := subtractFromNUMAs_conservation resources numaNodes nodes numaNodes'
    hval hnd hkeys hreq hz h r
  have hz' := subtractFromNUMAs_zonesNonneg resources numaNodes nodes numaNodes' hz h
  have h0 := totalAvailable_nonneg hz' r
  exact ⟨hcons, by linarith⟩

theorem subtractFromNUMAs_conservation_claim_witness :
    totalAvailable [⟨0, [("cpu", 3)]⟩, ⟨1, [("cpu", 4)]⟩] "cpu" -
        totalAvailable [⟨0, [("cpu", 0)]⟩, ⟨1, [("cpu", 2)]⟩] "cpu" =
      min (requestedAmount [("cpu", 5)] "cpu")
        (listedAvailable [⟨0, [("cpu", 3)]⟩, ⟨1, [("cpu", 4)]⟩] [0, 1] "cpu") ∧
    totalAvailable [⟨0, [("cpu", 3)]⟩, ⟨1, [("cpu", 4)]⟩] "cpu" -
        totalAvailable [⟨0, [("cpu", 0)]⟩, ⟨1, [("cpu", 2)]⟩] "cpu" ≤
      totalAvailable [⟨0, [("cpu", 3)]⟩, ⟨1, [("cpu", 4)]⟩] "cpu" :=
  subtractFromNUMAs_conservation_claim [("cpu", 5)]
    [⟨0, [("cpu", 3)]⟩, ⟨1, [("cpu", 4)]⟩] [0, 1]
    [⟨0, [("cpu", 0)]⟩, ⟨1, [("cpu", 2)]⟩]
    (by decide) (by decide) (by decide) (by decide) (by decide) (by rfl) "cpu"

/-- C2: with non-negative request and zone quantities, every zone quantity
is non-negative after `subtractFromNUMAs` (subtraction clamps to zero and
carries the remainder), and in the spec's equal-case scenario — request
`{cpu: 3}` against a single zone with `{cpu: 3}` — the zone's cpu entry is
afterwards exactly zero: still present, not negative and not omitted. -/
theorem subtractFromNUMAs_clamps_claim
    (resources : ResourceList) (numaNodes : NUMANodeList) (nodes : List Int)
    (numaNodes' : NUMANodeList)
    (_hreq : ∀ p ∈ resources, 0 ≤ p.2) (hz : zonesNonneg numaNodes)
    (h : subtractFromNUMAs resources numaNodes nodes = some numaNodes') :
    zonesNonneg numaNodes' ∧
    subtractFromNUMAs [("cpu", 3)] [⟨0, [("cpu", 3)]⟩] [0] =
      some [⟨0, [("cpu", 0)]⟩] ∧
    zoneEntry [⟨0, [("cpu", 0)]⟩] 0 "cpu" = some 0 :=
  ⟨subtractFromNUMAs_zonesNonneg resources numaNodes nodes numaNodes' hz h,
    by rfl, by rfl⟩

theorem subtractFromNUMAs_clamps_claim_witness :
    zonesNonneg [⟨0, [("cpu", 0)]⟩] ∧
    subtractFromNUMAs [("cpu", 3)] [⟨0, [("cpu", 3)]⟩] [0] =
      some [⟨0, [("cpu", 0)]⟩] ∧
    zoneEntry [⟨0, [("cpu", 0)]⟩] 0 "cpu" = some 0 :=
  subtractFromNUMAs_clamps_claim [("cpu", 3)] [⟨0, [("cpu", 3)]⟩] [0]
    [⟨0, [("cpu", 0)]⟩] (by decide) (by decide) (by rfl)

/-- C3: running `subtractFromNUMAs` with two permutations of the same set
of zone ids may leave different per-zone residuals but leaves, for each
resource kind, the same total quantity remaining across all zones. -/
theorem subtractFromNUMAs_order_invariance_claim
    (resources : ResourceList) (numaNodes : NUMANodeList)
    (nodes1 nodes2 : List Int) (zs1 zs2 : NUMANodeList)
    (hperm : nodes1.Perm nodes2)
    (hval : validNodes numaNodes nodes1) (hnd : nodes1.Nodup)
    (hkeys : (resources.map Prod.fst).Nodup)
    (hreq : ∀ p ∈ resources, 0 ≤ p.2) (hz : zonesNonneg numaNodes)
    (h1 : subtractFromNUMAs resources numaNodes nodes1 = some zs1)
    (h2 : subtractFromNUMAs resources numaNodes nodes2 = some zs2) :
    ∀ r, totalAvailable zs1 r = totalAvailable zs2 r := by
  intro r
  have hval2 : validNodes numaNodes nodes2 := fun n hn => hval n (hperm.mem_iff.mpr hn)
  have hnd2 : nodes2.Nodup := hperm.nodup_iff.mp hnd
  have e1 := subtractFromNUMAs_conservation resources numaNodes nodes1 zs1
    hval hnd hkeys hreq hz h1 r
  have e2 := subtractFromNUMAs_conservation resources numaNodes nodes2 zs2
    hval2 hnd2 hkeys hreq hz h2 r
  have hL : listedAvailable numaNodes nodes1 r = listedAvailable numaNodes nodes2 r := by
    unfold listedAvailable
    exact List.Perm.sum_eq (hperm.map _)
  rw [hL] at e1
  linarith

theorem subtractFromNUMAs_order_invariance_claim_witness :
    totalAvailable [⟨0, [("cpu", 0)]⟩, ⟨1, [("cpu", 2)]⟩] "cpu" =
      totalAvailable [⟨0, [("cpu", 2)]⟩, ⟨1, [("cpu", 0)]⟩] "cpu" :=
  subtractFromNUMAs_order_invariance_claim [("cpu", 5)]
    [⟨0, [("cpu", 3)]⟩, ⟨1, [("cpu", 4)]⟩] [0, 1] [1, 0]
    [⟨0, [("cpu", 0)]⟩, ⟨1, [("cpu", 2)]⟩] [⟨0, [("cpu", 2)]⟩, ⟨1, [("cpu", 0)]⟩]
    (by decide) (by decide) (by decide) (by decide) (by decide) (by decide)
    (by rfl) (by rfl) "cpu"

/-- C4: `subtractFromNUMAs` mutates only the per-zone ledger quantities:
threading every Go assignment through the full call state, a completed call
leaves the request map and the variadic node id list unchanged, and its
zone-ledger outcome is exactly that of `subtractFromNUMAs`. -/
theorem subtractFromNUMAsS_frame_claim (s s' : SubtractState)
    (h : subtractFromNUMAsS s = some s') :
    s'.resources = s.resources ∧ s'.nodes = s.nodes ∧
    subtractFromNUMAs s.resources s.numaNodes s.nodes = some s'.numaNodes := by
  rw [subtractFromNUMAsS_eq] at h
  cases hsub : subtractFromNUMAs s.resources s.numaNodes s.nodes with
  | none =>
    rw [hsub] at h
    simp at h
  | some zs' =>
    rw [hsub] at h
    simp only [Option.map_some', Option.some.injEq] at h
    subst h
    exact ⟨rfl, rfl, by simp [hsub]⟩

theorem subtractFromNUMAsS_frame_claim_witness :
    (SubtractState.mk [("cpu", 3)] [⟨0, [("cpu", 0)]⟩] [0]).resources =
      (SubtractState.mk [("cpu", 3)] [⟨0, [("cpu", 3)]⟩] [0]).resources ∧
    (SubtractState.mk [("cpu", 3)] [⟨0, [("cpu", 0)]⟩] [0]).nodes =
      (SubtractState.mk [("cpu", 3)] [⟨0, [("cpu", 3)]⟩] [0]).nodes ∧
    subtractFromNUMAs (SubtractState.mk [("cpu", 3)] [⟨0, [("cpu", 3)]⟩] [0]).resources
        (SubtractState.mk [("cpu", 3)] [⟨0, [("cpu", 3)]⟩] [0]).numaNodes
        (SubtractState.mk [("cpu", 3)] [⟨0, [("cpu", 3)]⟩] [0]).nodes =
      some (SubtractState.mk [("cpu", 3)] [⟨0, [("cpu", 0)]⟩] [0]).numaNodes :=
  subtractFromNUMAsS_frame_claim
    (SubtractState.mk [("cpu", 3)] [⟨0, [("cpu", 3)]⟩] [0])
    (SubtractState.mk [("cpu", 3)] [⟨0, [("cpu", 0)]⟩] [0]) (by rfl)

/-- C5: a request whose quantities are all zero leaves the zone inventory
unchanged, and whenever the remaining requested quantity for a kind is
zero the scan over zones stops immediately, modifying nothing. -/
theorem subtractFromNUMAs_zero_request_claim
    (resources : ResourceList) (numaNodes : NUMANodeList) (nodes : List Int)
    (h0 : ∀ p ∈ resources, p.2 = 0) :
    subtractFromNUMAs resources numaNodes nodes = some numaNodes ∧
    ∀ r : ResourceName, subtractInner r 0 numaNodes nodes = some (0, numaNodes) :=
  ⟨subtractFromNUMAs_zero_request resources numaNodes nodes h0,
    fun r => subtractInner_zero r numaNodes nodes⟩

theorem subtractFromNUMAs_zero_request_claim_witness :
    subtractFromNUMAs [("cpu", 0), ("memory", 0)]
        [⟨0, [("cpu", 3)]⟩, ⟨1, [("cpu", 4)]⟩] [0, 1] =
      some [⟨0, [("cpu", 3)]⟩, ⟨1, [("cpu", 4)]⟩] ∧
    ∀ r : ResourceName, subtractInner r 0 [⟨0, [("cpu", 3)]⟩, ⟨1, [("cpu", 4)]⟩] [0, 1] =
      some (0, [⟨0, [("cpu", 3)]⟩, ⟨1, [("cpu", 4)]⟩]) :=
  subtractFromNUMAs_zero_request_claim [("cpu", 0), ("memory", 0)]
    [⟨0, [("cpu", 3)]⟩, ⟨1, [("cpu", 4)]⟩] [0, 1] (by decide)

/-- C6: a zone with no ledger entry for a requested kind is skipped for
that kind — no entry is ever created — and a kind carried by no listed
zone leaves every zone untouched for that kind while the remaining
requested quantity is never reduced. -/
theorem subtractFromNUMAs_skip_missing_claim
    (resources : ResourceList) (numaNodes : NUMANodeList) (nodes : List Int)
    (numaNodes' : NUMANodeList) (r : ResourceName)
    (hval : validNodes numaNodes nodes)
    (h : subtractFromNUMAs resources numaNodes nodes = some numaNodes') :
    (∀ i rr, zoneEntry numaNodes i rr = none → zoneEntry numaNodes' i rr = none) ∧
    ((∀ n ∈ nodes, zoneEntryAt numaNodes n r = none) →
      (∀ i, zoneEntry numaNodes' i r = zoneEntry numaNodes i r) ∧
      ∀ q : Quantity, subtractInner r q numaNodes nodes = some (q, numaNodes)) := by
  constructor
  · intro i rr hnone
    exact ((subtractFromNUMAs_frame resources numaNodes nodes numaNodes' h).2 i rr).mpr
      hnone
  · intro habs
    exact ⟨subtractFromNUMAs_absent r resources numaNodes nodes numaNodes' hval habs h,
      fun q => subtractInner_no_entry r nodes q numaNodes hval habs⟩

theorem subtractFromNUMAs_skip_missing_claim_witness :
    zoneEntry [⟨0, [("cpu", 3)]⟩] 0 "memory" = none ∧
    subtractInner "memory" 2 [⟨0, [("cpu", 3)]⟩] [0] =
      some (2, [⟨0, [("cpu", 3)]⟩]) := by
  have h := subtractFromNUMAs_skip_missing_claim [("memory", 2)] [⟨0, [("cpu", 3)]⟩]
    [0] [⟨0, [("cpu", 3)]⟩] "memory" (by decide) (by rfl)
  exact ⟨by rfl, (h.2 (by decide)).2 2⟩

/-- C10: `subtractFromNUMAs` indexes the zone inventory by each listed id
without a bounds check: when every listed id lies in `[0, length)` the
evaluation is total (the out-of-range branch is unreachable), while an id
outside that range makes the lookup fail — the runtime panic of the
original program, `none` here. -/
theorem subtractFromNUMAs_indexing_claim :
    (∀ (resources : ResourceList) (numaNodes : NUMANodeList) (nodes : List Int),
      validNodes numaNodes nodes →
      (subtractFromNUMAs resources numaNodes nodes).isSome) ∧
    subtractFromNUMAs [("cpu", 1)] [⟨0, [("cpu", 2)]⟩] [1] = none ∧
    subtractFromNUMAs [("cpu", 1)] [⟨0, [("cpu", 2)]⟩] [-1] = none :=
  ⟨subtractFromNUMAs_isSome, by rfl, by rfl⟩

theorem subtractFromNUMAs_indexing_claim_witness :
    (subtractFromNUMAs [("cpu", 1)] [⟨0, [("cpu", 2)]⟩] [0]).isSome ∧
    subtractFromNUMAs [("cpu", 1)] [⟨0, [("cpu", 2)]⟩] [1] = none :=
  ⟨subtractFromNUMAs_indexing_claim.1 [("cpu", 1)] [⟨0, [("cpu", 2)]⟩] [0] (by decide),
    subtractFromNUMAs_indexing_claim.2.1⟩

/-- C7: the least-NUMA scoring dispatch table is total over the six
Alignment Policy variants with exactly one entry each: its keys are
precisely the six variants, each registered once, pod-level variants
mapping to the pod-scope fewest-zones scorer and container-level variants
to the container-scope one. -/
theorem leastNUMAscoreHandlers_total_claim :
    leastNUMAscoreHandlers.map Prod.fst = allPolicies ∧
    (leastNUMAscoreHandlers.map Prod.fst).Nodup ∧
    leastNUMAscoreHandlers.length = 6 ∧
    tableLookup leastNUMAscoreHandlers SingleNUMANodePodLevel =
      some .leastNUMAPodScopeScore ∧
    tableLookup leastNUMAscoreHandlers BestEffortPodLevel =
      some .leastNUMAPodScopeScore ∧
    tableLookup leastNUMAscoreHandlers RestrictedPodLevel =
      some .leastNUMAPodScopeScore ∧
    tableLookup leastNUMAscoreHandlers SingleNUMANodeContainerLevel =
      some .leastNUMAContainerScopeScore ∧
    tableLookup leastNUMAscoreHandlers BestEffortContainerLevel =
      some .leastNUMAContainerScopeScore ∧
    tableLookup leastNUMAscoreHandlers RestrictedContainerLevel =
      some .leastNUMAContainerScopeScore := by
  refine ⟨rfl, ?_, rfl, rfl, rfl, rfl, rfl, rfl, rfl⟩
  decide

/-- C8: `New` returns an error and no plugin instance when the args are of
the wrong type, when the topology informer cannot be initialized, or when
the configured scoring-strategy type is unsupported; a `TopologyMatch` is
produced only when all three checks pass. -/
theorem New_construction_claim :
    (∀ (t : String) (informer : Except String NrtCacheHandle),
      New (.other t) informer =
        .error ("want args to be of type NodeResourceTopologyMatchArgs, got " ++ t)) ∧
    (∀ (tcfg : NodeResourceTopologyMatchArgs) (e : String),
      New (.nrtMatchArgs tcfg) (.error e) = .error e) ∧
    (∀ (tcfg : NodeResourceTopologyMatchArgs) (c : NrtCacheHandle) (e : String),
      getScoringStrategyFunction tcfg.scoringStrategy.type = .error e →
      tcfg.scoringStrategy.type ≠ LeastNUMANodes →
      New (.nrtMatchArgs tcfg) (.ok c) = .error e) ∧
    (∀ (args : RuntimeObject) (informer : Except String NrtCacheHandle)
      (tm : TopologyMatch),
      New args informer = .ok tm →
      ∃ tcfg c, args = .nrtMatchArgs tcfg ∧ informer = .ok c ∧
        (tcfg.scoringStrategy.type = LeastNUMANodes ∨
          ∃ strategy,
            getScoringStrategyFunction tcfg.scoringStrategy.type = .ok strategy)) := by
  refine ⟨fun t informer => rfl, fun tcfg e => rfl, ?_, ?_⟩
  · intro tcfg c e herr hne
    simp only [New, if_neg hne, herr]
  · intro args informer tm h
    cases args with
    | other t => simp [New] at h
    | nrtMatchArgs tcfg =>
      cases informer with
      | error e => simp [New] at h
      | ok c =>
        refine ⟨tcfg, c, rfl, rfl, ?_⟩
        by_cases hlnn : tcfg.scoringStrategy.type = LeastNUMANodes
        · exact Or.inl hlnn
        · right
          cases hst : getScoringStrategyFunction tcfg.scoringStrategy.type with
          | error e =>
            simp only [New, if_neg hlnn, hst] at h
            exact Except.noConfusion h
          | ok strategy => exact ⟨strategy, rfl⟩

theorem New_construction_claim_witness :
    New (.other "foo") (.ok ⟨0⟩) =
      .error ("want args to be of type NodeResourceTopologyMatchArgs, got " ++ "foo") ∧
    New (.nrtMatchArgs ⟨⟨"BadStrategy", []⟩⟩) (.error "informer down") =
      .error "informer down" ∧
    New (.nrtMatchArgs ⟨⟨"BadStrategy", []⟩⟩) (.ok ⟨0⟩) =
      .error ("illegal scoring strategy found " ++ "BadStrategy") :=
  ⟨New_construction_claim.1 "foo" (.ok ⟨0⟩),
    New_construction_claim.2.1 ⟨⟨"BadStrategy", []⟩⟩ "informer down",
    New_construction_claim.2.2.1 ⟨⟨"BadStrategy", []⟩⟩ ⟨0⟩ _ (by rfl) (by decide)⟩

/-- C9: `New` selects exactly one scoring strategy at construction: under
`LeastNUMANodes` the engine's scoring handlers are the least-NUMA dispatch
table regardless of configured weights; otherwise they are built from the
resolved strategy function parameterized by the weight map, which binds
each configured resource name to its configured weight. -/
theorem New_scoring_selection_claim
    (tcfg : NodeResourceTopologyMatchArgs) (c : NrtCacheHandle) (tm : TopologyMatch)
    (h : New (.nrtMatchArgs tcfg) (.ok c) = .ok tm) :
    (tcfg.scoringStrategy.type = LeastNUMANodes →
      tm.scoringHandlers = leastNUMAscoreHandlers) ∧
    (tcfg.scoringStrategy.type ≠ LeastNUMANodes →
      ∃ strategy, getScoringStrategyFunction tcfg.scoringStrategy.type = .ok strategy ∧
        tm.scoringHandlers = newScoringHandlers strategy
          (buildResourceToWeightMap tcfg.scoringStrategy.resources)) ∧
    tm.resourceToWeightMap = buildResourceToWeightMap tcfg.scoringStrategy.resources ∧
    ((tcfg.scoringStrategy.resources.map ResourceSpec.Name).Nodup →
      ∀ rs ∈ tcfg.scoringStrategy.resources,
        rlLookup tm.resourceToWeightMap rs.Name = some rs.Weight) := by
  by_cases hlnn : tcfg.scoringStrategy.type = LeastNUMANodes
  · simp only [New, if_pos hlnn, Except.ok.injEq] at h
    subst h
    exact ⟨fun _ => rfl, fun hne => absurd hlnn hne, rfl,
      fun hnd rs hrs => buildResourceToWeightMap_lookup hnd rs hrs⟩
  · simp only [New, if_neg hlnn] at h
    cases hst : getScoringStrategyFunction tcfg.scoringStrategy.type with
    | error e =>
      rw [hst] at h
      simp at h
    | ok strategy =>
      rw [hst] at h
      simp only [Except.ok.injEq] at h
      subst h
      exact ⟨fun heq => absurd heq hlnn, fun _ => ⟨strategy, rfl, rfl⟩, rfl,
        fun hnd rs hrs => buildResourceToWeightMap_lookup hnd rs hrs⟩

theorem New_scoring_selection_claim_witness :
    (TopologyMatch.mk newFilterHandlers leastNUMAscoreHandlers
        (buildResourceToWeightMap [⟨"cpu", 3⟩]) ⟨0⟩).scoringHandlers =
      leastNUMAscoreHandlers ∧
    rlLookup (TopologyMatch.mk newFilterHandlers leastNUMAscoreHandlers
        (buildResourceToWeightMap [⟨"cpu", 3⟩]) ⟨0⟩).resourceToWeightMap "cpu" =
      some 3 := by
  have h := New_scoring_selection_claim ⟨⟨"LeastNUMANodes", [⟨"cpu", 3⟩]⟩⟩ ⟨0⟩
    (TopologyMatch.mk newFilterHandlers leastNUMAscoreHandlers
      (buildResourceToWeightMap [⟨"cpu", 3⟩]) ⟨0⟩) (by rfl)
  exact ⟨h.1 (by rfl), by
    simpa using h.2.2.2 (by decide) ⟨"cpu", 3⟩ (by decide)⟩

example :
    subtractFromNUMAs [("cpu", 3)] [⟨0, [("cpu", 3)]⟩] [0] =
      some [⟨0, [("cpu", 0)]⟩] := by rfl

example :
    subtractFromNUMAs [("cpu", 6), ("memory", 4)]
      [⟨0, [("cpu", 4), ("memory", 8)]⟩, ⟨1, [("cpu", 4), ("memory", 8)]⟩] [0, 1] =
    some [⟨0, [("cpu", 0), ("memory", 4)]⟩, ⟨1, [("cpu", 2), ("memory", 8)]⟩] := by rfl

example : subtractFromNUMAs [("cpu", 1)] [⟨0, [("cpu", 2)]⟩] [1] = none := by rfl

example : subtractFromNUMAs [("cpu", 1)] [⟨0, [("cpu", 2)]⟩] [-1] = none := by rfl

end NRT
